import Mathlib

/-!
# Verification of the ArabicToMP3 core (text segmentation, retry policy, orchestration)

Shallow embedding of the core logic of `arabic_to_mp3.py`:

* `split_text_into_chunks` / `split_by_words` — the text segmenter
  (strings modelled as `List Char`, Python string lengths as `Nat`);
* `text_to_speech` — the bounded-retry synthesis adapter, modelled as a
  function of the per-attempt outcomes of the external synthesis call;
* `convert_chapter_chunked` / `convert_all_chapters_chunked` — the
  orchestrators, parametrised by the behaviour of the adapter.
-/

namespace ArabicToMP3

/-- Python whitespace class used by `str.strip`, `str.split` and `\s` in the
regular expression `[.؟!]\s+` (the ASCII whitespace characters; this is the
class the embedding uses uniformly). -/
def isSpace (c : Char) : Bool :=
  c = ' ' || c = '\t' || c = '\n' || c = '\x0d' || c = '\x0b' || c = '\x0c'

/-- The three sentence terminators of `re.split(r"[.؟!]\s+", text)`:
period, Arabic question mark (U+061F), exclamation mark. -/
def isTerm (c : Char) : Bool :=
  c = '.' || c = '؟' || c = '!'

/-- Python `str.strip()`: drop leading and trailing whitespace. -/
def pyStrip (l : List Char) : List Char :=
  ((l.dropWhile isSpace).reverse.dropWhile isSpace).reverse

/-- Scanner for Python `str.split()`; `acc` is the current word, reversed. -/
def pySplitAux : List Char → List Char → List (List Char)
  | acc, [] => if acc = [] then [] else [acc.reverse]
  | acc, c :: cs =>
    if isSpace c then
      if acc = [] then pySplitAux [] cs else acc.reverse :: pySplitAux [] cs
    else pySplitAux (c :: acc) cs

/-- Python `str.split()` (no separator): split on whitespace runs,
discarding empty pieces. -/
def pySplit (l : List Char) : List (List Char) :=
  pySplitAux [] l

/-- Scanner for `re.split(r"[.؟!]\s+", text)`: at each terminator immediately
followed by whitespace, the current piece ends (the terminator is consumed)
and the whitespace run is consumed (`skipWS` mode, one character at a time,
mirroring the greedy `\s+`); `acc` is the current piece, reversed. -/
def reSplitAux : Bool → List Char → List Char → List (List Char)
  | _, acc, [] => [acc.reverse]
  | skipWS, acc, c :: cs =>
    if skipWS && isSpace c then
      reSplitAux true acc cs
    else if isTerm c && !cs.isEmpty && isSpace cs.headI then
      acc.reverse :: reSplitAux true [] cs
    else
      reSplitAux false (c :: acc) cs

/-- `re.split(r"[.؟!]\s+", text)` (line 80). -/
def reSplitSentences (text : List Char) : List (List Char) :=
  reSplitAux false [] text

/-- `sentence.endswith((".", "؟", "!"))`: the last character is one of the
three terminators. -/
def endsTerm (l : List Char) : Bool :=
  match l.getLast? with
  | none => false
  | some c => isTerm c

/-- Lines 87–89: append a period unless the (stripped, nonempty) candidate
already ends with one of the three terminators. -/
def processSentence (s : List Char) : List Char :=
  if endsTerm s then s else s ++ ['.']

/-- Emit the current buffer if it is nonempty after stripping (the pattern
of lines 93–96, 126–128 and the final flushes at lines 112–114 and
135–136). -/
def flushChunks (st : List (List Char) × List Char) : List (List Char) :=
  if pyStrip st.2 ≠ [] then st.1 ++ [pyStrip st.2] else st.1

/-- One iteration of the word-packing loop of `_split_by_words`
(lines 124–133): state is `(chunks, current_chunk)`. -/
def sbwStep (maxSize : Nat) (st : List (List Char) × List Char) (word : List Char) :
    List (List Char) × List Char :=
  let chunks := st.1
  let cur := st.2
  if cur.length + word.length + 1 > maxSize then
    (flushChunks (chunks, cur), word)
  else
    (chunks, if cur ≠ [] then cur ++ ' ' :: word else word)

/-- `_split_by_words(text, max_chunk_size)` (lines 118–138). -/
def split_by_words (text : List Char) (maxSize : Nat) : List (List Char) :=
  flushChunks ((pySplit text).foldl (sbwStep maxSize) ([], []))

/-- One iteration of the sentence-packing loop of `split_text_into_chunks`
(lines 82–110): state is `(chunks, current_chunk)`. -/
def stcStep (maxSize : Nat) (st : List (List Char) × List Char) (raw : List Char) :
    List (List Char) × List Char :=
  let chunks := st.1
  let cur := st.2
  let s := pyStrip raw
  if s = [] then st
  else
    let sentence := processSentence s
    if cur.length + sentence.length + 1 > maxSize then
      let chunks1 := flushChunks (chunks, cur)
      if sentence.length > maxSize then
        let wcs := split_by_words sentence maxSize
        (chunks1 ++ wcs.dropLast, (wcs.getLast?).getD [])
      else
        (chunks1, sentence)
    else
      (chunks, if cur ≠ [] then cur ++ ' ' :: sentence else sentence)

/-- The sentence-packing phase of `split_text_into_chunks` (lines 76–116):
fold the packing step over the sentence candidates, then flush the final
buffer if it is nonempty after stripping. -/
def sentencePhase (maxSize : Nat) (sents : List (List Char)) : List (List Char) :=
  flushChunks (sents.foldl (stcStep maxSize) ([], []))

/-- `split_text_into_chunks(text, max_chunk_size)` (lines 65–116). -/
def split_text_into_chunks (text : List Char) (maxSize : Nat) : List (List Char) :=
  if text.length ≤ maxSize then [text]
  else sentencePhase maxSize (reSplitSentences text)

/-- The sentence candidates after the per-candidate normalisation of lines
83–89: stripped, with empty candidates skipped and a period appended when
the candidate does not already end with a terminator. -/
def processedSentences (text : List Char) : List (List Char) :=
  (reSplitSentences text).filterMap (fun raw =>
    if pyStrip raw = [] then none else some (processSentence (pyStrip raw)))

/-- The normal form of the input text modulo appended terminal punctuation
and whitespace collapsing: the sequence of whitespace-free words of the
terminator-normalised sentence candidates. -/
def normalizedWords (text : List Char) : List (List Char) :=
  (processedSentences text).flatMap pySplit

/-- The words one sentence candidate contributes to the normal form. -/
def sentWords (raw : List Char) : List (List Char) :=
  if pyStrip raw = [] then [] else pySplit (processSentence (pyStrip raw))

theorem length_dropWhile_le (p : Char → Bool) (l : List Char) :
    (l.dropWhile p).length ≤ l.length := by
  induction l with
  | nil => simp [List.dropWhile]
  | cons c cs ih =>
    simp only [List.dropWhile]
    split
    · exact Nat.le_succ_of_le ih
    · simp

/-- Variant of the sentence scanner that also records, after each piece, the
separator (the matched terminator and the consumed whitespace run); the
final piece is paired with `[]`. -/
def reSplitAuxS : List Char → List Char → List (List Char × List Char)
  | acc, [] => [(acc.reverse, [])]
  | acc, c :: cs =>
    if isTerm c && !cs.isEmpty && isSpace cs.headI then
      (acc.reverse, c :: cs.takeWhile isSpace) :: reSplitAuxS [] (cs.dropWhile isSpace)
    else
      reSplitAuxS (c :: acc) cs
  termination_by _ l => l.length
  decreasing_by
    · exact Nat.lt_succ_of_le (length_dropWhile_le _ _)
    · simp

/-- The pieces of `reSplitSentences text` paired with the separators the
split consumed between them. -/
def reSplitWithSeps (text : List Char) : List (List Char × List Char) :=
  reSplitAuxS [] text

/-- No position inside the string is a terminator immediately followed by a
whitespace character — i.e. the string contains no occurrence of the split
pattern `[.؟!]\s+`. -/
def chunkNoTermSpace : List Char → Bool
  | [] => true
  | [_] => true
  | a :: b :: rest => !(isTerm a && isSpace b) && chunkNoTermSpace (b :: rest)

/-! ## Synthesis adapter: `text_to_speech` (lines 181–245)

The external call `synthesizer.speak_text_async(text).get()` is abstracted
by a function giving the outcome of each attempt; the adapter's control
flow (retry, backoff sleeps, file write, raising) is modelled exactly. -/

/-- Python `str.lower()`. -/
def pyLower (l : List Char) : List Char := l.map Char.toLower

/-- Python `needle in hay` for strings: substring containment. -/
def containsSub (needle hay : List Char) : Bool :=
  hay.tails.any (fun t => needle.isPrefixOf t)

/-- Lines 214–217: the cancellation's error details contain `"quota"` or
`"rate"`, case-insensitively. -/
def isRateLimited (errorDetails : List Char) : Bool :=
  containsSub "quota".toList (pyLower errorDetails) ||
    containsSub "rate".toList (pyLower errorDetails)

/-- Outcome of one attempt of the external synthesis call, as the adapter
observes it: a `None` result, a completed synthesis, a cancellation carrying
error details, a result with any other reason, or an exception from the
call itself. -/
inductive SynthOutcome where
  | nullResult
  | completed
  | canceled (errorDetails : List Char)
  | otherReason
  | exceptionRaised
deriving DecidableEq

/-- How one call of `text_to_speech` terminates: returns `True` after
writing the file, returns `False`, or propagates an exception. -/
inductive TtsResult where
  | fileWritten
  | returnedFalse
  | raised
deriving DecidableEq

/-- Observable behaviour of one `text_to_speech` call: how it terminated,
how many synthesis attempts it made, the sleep durations (in seconds, in
order), and how many files it wrote. -/
structure TtsRun where
  result : TtsResult
  attempts : Nat
  sleeps : List Nat
  filesWritten : Nat
deriving DecidableEq

/-- Outcomes that take the failure path of lines 225–243 (caught by the
`except` block): a cancellation whose details are not rate-limited, a result
with any other reason, or an exception raised by the synthesis call. -/
def failLike : SynthOutcome → Bool
  | .canceled d => !isRateLimited d
  | .otherReason => true
  | .exceptionRaised => true
  | _ => false

/-- Outcomes that take the rate-limited branch of lines 214–223. -/
def rateLike : SynthOutcome → Bool
  | .canceled d => isRateLimited d
  | _ => false

/-- The retry loop of lines 183–245. `attempt` is the 0-based index of the
current attempt, `fuel` the number of attempts still available
(`retry_count - attempt`); falling out of the loop returns `False`. -/
def ttsAux (outcomes : Nat → SynthOutcome) : Nat → Nat → TtsRun
  | _, 0 => ⟨.returnedFalse, 0, [], 0⟩
  | attempt, fuel + 1 =>
    match outcomes attempt with
    | .nullResult => ⟨.returnedFalse, 1, [], 0⟩
    | .completed => ⟨.fileWritten, 1, [], 1⟩
    | .canceled d =>
      if isRateLimited d then
        let r := ttsAux outcomes (attempt + 1) fuel
        ⟨r.result, r.attempts + 1, (attempt + 1) * 5 :: r.sleeps, r.filesWritten⟩
      else if fuel = 0 then ⟨.raised, 1, [], 0⟩
      else
        let r := ttsAux outcomes (attempt + 1) fuel
        ⟨r.result, r.attempts + 1, (attempt + 1) * 2 :: r.sleeps, r.filesWritten⟩
    | .otherReason =>
      if fuel = 0 then ⟨.raised, 1, [], 0⟩
      else
        let r := ttsAux outcomes (attempt + 1) fuel
        ⟨r.result, r.attempts + 1, (attempt + 1) * 2 :: r.sleeps, r.filesWritten⟩
    | .exceptionRaised =>
      if fuel = 0 then ⟨.raised, 1, [], 0⟩
      else
        let r := ttsAux outcomes (attempt + 1) fuel
        ⟨r.result, r.attempts + 1, (attempt + 1) * 2 :: r.sleeps, r.filesWritten⟩

/-- `text_to_speech(text, output_path, retry_count)`: the text and path do
not influence the control flow, which depends only on the per-attempt
outcomes of the external call. -/
def text_to_speech (outcomes : Nat → SynthOutcome) (retry_count : Nat) : TtsRun :=
  ttsAux outcomes 0 retry_count

/-! ## Orchestrators (lines 260–333) -/

/-- A chapter as produced by `get_chapters`. -/
structure Chapter where
  title : List Char
  text : List Char
deriving DecidableEq

/-- An output path `{book_name}_Ch{chapter_index + 1:02d}_Part{chunk_index
+ 1:02d}.mp3`, kept as its three varying fields. -/
structure OutPath where
  book : List Char
  chapterNum : Int
  partNum : Nat
deriving DecidableEq

/-- How one `text_to_speech` call behaves as the orchestrator sees it. -/
inductive ChunkOutcome where
  | success
  | returnedFalse
  | raised
deriving DecidableEq

/-- Python list indexing `chapters[chapter_index]`: a negative index counts
from the end; out of range raises `IndexError` (modelled as `none`). -/
def pyIndex (l : List Chapter) (i : Int) : Option Chapter :=
  let j := if i < 0 then (l.length : Int) + i else i
  if 0 ≤ j then l[j.toNat]? else none

/-- The chunk loop of lines 284–302: try each chunk in order, collect the
output path on success, skip the chunk when the call returns `False` or
raises. `k` is the 0-based chunk index. -/
def chunkLoop (tts : List Char → OutPath → ChunkOutcome) (book : List Char)
    (chNum : Int) : Nat → List (List Char) → List OutPath
  | _, [] => []
  | k, c :: rest =>
    let p : OutPath := ⟨book, chNum, k + 1⟩
    match tts c p with
    | .success => p :: chunkLoop tts book chNum (k + 1) rest
    | .returnedFalse => chunkLoop tts book chNum (k + 1) rest
    | .raised => chunkLoop tts book chNum (k + 1) rest

/-- `convert_chapter_chunked(chapter_index)` (lines 260–304), parametrised
by the behaviour `tts` of the synthesis adapter. -/
def convert_chapter_chunked (tts : List Char → OutPath → ChunkOutcome)
    (book : List Char) (chunk_size : Nat) (chapters : List Chapter)
    (chapter_index : Int) : Option (List OutPath) :=
  if chapters.isEmpty then some []
  else if (chapters.length : Int) ≤ chapter_index then some []
  else
    match pyIndex chapters chapter_index with
    | none => none
    | some chapter =>
      some (chunkLoop tts book (chapter_index + 1) 0
        (split_text_into_chunks chapter.text chunk_size))

/-- `convert_all_chapters_chunked()` (lines 306–333): apply
`convert_chapter_chunked` to every chapter index in order and concatenate
the produced path lists. -/
def convert_all_chapters_chunked (tts : List Char → OutPath → ChunkOutcome)
    (book : List Char) (chunk_size : Nat) (chapters : List Chapter) :
    Option (List OutPath) :=
  if chapters.isEmpty then some []
  else
    (List.range chapters.length).foldlM
      (fun acc (i : Nat) =>
        (convert_chapter_chunked tts book chunk_size chapters (i : Int)).map
          (fun fs => acc ++ fs))
      []

/-! ## Stripping: basic properties -/

theorem dropWhile_eq_self_of_head {p : Char → Bool} {l : List Char}
    (h : ∀ c, l.head? = some c → p c = false) : l.dropWhile p = l := by
  cases l with
  | nil => rfl
  | cons c cs => simp [List.dropWhile, h c rfl]

theorem dropWhile_head?_false {p : Char → Bool} :
    ∀ {l : List Char} {c : Char}, (l.dropWhile p).head? = some c → p c = false := by
  intro l
  induction l with
  | nil => intro c h; simp [List.dropWhile] at h
  | cons a as ih =>
    intro c h
    simp only [List.dropWhile] at h
    split at h
    · exact ih h
    · simp only [List.head?_cons, Option.some.injEq] at h
      subst h
      simp_all

theorem getLast?_dropWhile {p : Char → Bool} :
    ∀ {l : List Char}, l.dropWhile p ≠ [] → (l.dropWhile p).getLast? = l.getLast? := by
  intro l
  induction l with
  | nil => intro h; exact absurd rfl h
  | cons a as ih =>
    intro h
    rw [List.dropWhile_cons] at h ⊢
    by_cases hpa : p a = true
    · rw [if_pos hpa] at h ⊢
      cases as with
      | nil => simp [List.dropWhile] at h
      | cons b bs =>
        rw [List.getLast?_cons_cons]
        exact ih h
    · rw [if_neg hpa] at h ⊢

/-- The string has no leading and no trailing whitespace — what `strip`
guarantees about its result and what it leaves unchanged. -/
def noEdgeSpace (l : List Char) : Prop :=
  (∀ c, l.head? = some c → isSpace c = false) ∧
  (∀ c, l.getLast? = some c → isSpace c = false)

theorem noEdgeSpace_nil : noEdgeSpace [] := ⟨by simp, by simp⟩

theorem pyStrip_noEdgeSpace (l : List Char) : noEdgeSpace (pyStrip l) := by
  unfold pyStrip
  constructor
  · intro c h
    rw [List.head?_reverse] at h
    have hne : (l.dropWhile isSpace).reverse.dropWhile isSpace ≠ [] := by
      intro hnil
      rw [hnil] at h
      simp at h
    rw [getLast?_dropWhile hne, List.getLast?_reverse] at h
    exact dropWhile_head?_false h
  · intro c h
    rw [List.getLast?_reverse] at h
    exact dropWhile_head?_false h

theorem pyStrip_eq_self {l : List Char} (h : noEdgeSpace l) : pyStrip l = l := by
  unfold pyStrip
  rw [dropWhile_eq_self_of_head h.1]
  rw [dropWhile_eq_self_of_head (fun c hc => h.2 c (by rwa [List.head?_reverse] at hc))]
  exact l.reverse_reverse

theorem pyStrip_idem (l : List Char) : pyStrip (pyStrip l) = pyStrip l :=
  pyStrip_eq_self (pyStrip_noEdgeSpace l)

theorem noEdgeSpace_append {a b : List Char} (ha : noEdgeSpace a) (hb : noEdgeSpace b)
    (ha' : a ≠ []) (hb' : b ≠ []) : noEdgeSpace (a ++ ' ' :: b) := by
  constructor
  · intro c h
    rw [List.head?_append_of_ne_nil a ha'] at h
    exact ha.1 c h
  · intro c h
    rw [List.getLast?_append_of_ne_nil a (by simp)] at h
    cases b with
    | nil => exact absurd rfl hb'
    | cons x xs =>
      rw [List.getLast?_cons_cons] at h
      exact hb.2 c h

theorem noEdgeSpace_of_no_space {w : List Char} (h : ∀ ch ∈ w, isSpace ch = false) :
    noEdgeSpace w := by
  constructor
  · exact fun c hc => h c (List.mem_of_mem_head? hc)
  · intro c hc
    cases w with
    | nil => simp at hc
    | cons x xs =>
      have hne : x :: xs ≠ [] := by simp
      rw [List.getLast?_eq_getLast _ hne] at hc
      injection hc with hc
      subst hc
      exact h _ (List.getLast_mem hne)

/-! ## The per-sentence normalisation -/

theorem processSentence_noEdgeSpace {s : List Char} (hs : noEdgeSpace s) (hne : s ≠ []) :
    noEdgeSpace (processSentence s) ∧ processSentence s ≠ [] := by
  unfold processSentence
  split
  · exact ⟨hs, hne⟩
  · refine ⟨⟨?_, ?_⟩, by simp⟩
    · intro c h
      rw [List.head?_append_of_ne_nil s hne] at h
      exact hs.1 c h
    · intro c h
      rw [List.getLast?_concat] at h
      injection h with h
      subst h
      decide

theorem processSentence_endsTerm {s : List Char} (hne : s ≠ []) :
    endsTerm (processSentence s) = true := by
  unfold processSentence
  split
  · assumption
  · unfold endsTerm
    rw [List.getLast?_concat]
    decide

theorem processSentence_length {s : List Char} :
    s.length ≤ (processSentence s).length := by
  unfold processSentence
  split
  · exact le_refl _
  · simp

/-! ## Word splitting: basic properties -/

theorem pySplit_nil : pySplit [] = [] := rfl

theorem pySplitAux_append_space {c : Char} (hc : isSpace c = true) (y : List Char) :
    ∀ (x acc : List Char),
      pySplitAux acc (x ++ c :: y) = pySplitAux acc x ++ pySplit y := by
  intro x
  induction x with
  | nil =>
    intro acc
    simp only [List.nil_append, pySplitAux, hc, if_pos, pySplit]
    by_cases hacc : acc = []
    · simp [hacc]
    · simp [hacc]
  | cons a x ih =>
    intro acc
    simp only [List.cons_append, pySplitAux]
    by_cases ha : isSpace a = true
    · simp only [ha, if_pos]
      by_cases hacc : acc = []
      · simp [hacc, ih]
      · simp [hacc, ih]
    · simp only [ha, Bool.false_eq_true, if_neg, not_false_iff]
      exact ih (a :: acc)

theorem pySplit_append_space {c : Char} (hc : isSpace c = true) (x y : List Char) :
    pySplit (x ++ c :: y) = pySplit x ++ pySplit y :=
  pySplitAux_append_space hc y x []

theorem pySplitAux_no_space :
    ∀ (w : List Char), (∀ ch ∈ w, isSpace ch = false) →
      ∀ acc, pySplitAux acc w =
        if acc.reverse ++ w = [] then [] else [acc.reverse ++ w] := by
  intro w
  induction w with
  | nil =>
    intro _ acc
    simp only [pySplitAux, List.append_nil]
    by_cases hacc : acc = []
    · simp [hacc]
    · simp [hacc]
  | cons a w ih =>
    intro h acc
    have ha : isSpace a = false := h a (by simp)
    simp only [pySplitAux, ha, Bool.false_eq_true, if_neg, not_false_iff]
    rw [ih (fun ch hch => h ch (by simp [hch])) (a :: acc)]
    have hrw : (a :: acc).reverse ++ w = acc.reverse ++ a :: w := by simp
    rw [hrw]

theorem pySplit_word {w : List Char} (h : ∀ ch ∈ w, isSpace ch = false)
    (hne : w ≠ []) : pySplit w = [w] := by
  unfold pySplit
  rw [pySplitAux_no_space w h []]
  simp [hne]

theorem pySplitAux_mem :
    ∀ (l acc : List Char), (∀ ch ∈ acc, isSpace ch = false) →
      ∀ w ∈ pySplitAux acc l, w ≠ [] ∧ ∀ ch ∈ w, isSpace ch = false := by
  intro l
  induction l with
  | nil =>
    intro acc hacc w hw
    simp only [pySplitAux] at hw
    by_cases h : acc = []
    · simp [h] at hw
    · simp only [h, if_neg, not_false_iff] at hw
      simp only [List.mem_singleton] at hw
      subst hw
      exact ⟨by simpa using h, fun ch hch => hacc ch (by simpa using hch)⟩
  | cons a l ih =>
    intro acc hacc w hw
    simp only [pySplitAux] at hw
    by_cases ha : isSpace a = true
    · simp only [ha, if_pos] at hw
      by_cases h : acc = []
      · simp only [h, if_pos] at hw
        exact ih [] (by simp) w hw
      · simp only [h, if_neg, not_false_iff, List.mem_cons] at hw
        rcases hw with hw | hw
        · subst hw
          exact ⟨by simpa using h, fun ch hch => hacc ch (by simpa using hch)⟩
        · exact ih [] (by simp) w hw
    · simp only [ha, Bool.false_eq_true, if_neg, not_false_iff] at hw
      refine ih (a :: acc) ?_ w hw
      intro ch hch
      rcases List.mem_cons.mp hch with h | h
      · subst h; simpa using ha
      · exact hacc ch h

theorem pySplit_mem {l w : List Char} (hw : w ∈ pySplit l) :
    w ≠ [] ∧ ∀ ch ∈ w, isSpace ch = false :=
  pySplitAux_mem l [] (by simp) w hw

/-! ## The packing invariant -/

/-- A chunk respects the size limit, or consists of a single indivisible
word (it contains no whitespace at all). -/
def sizeOK (m : Nat) (c : List Char) : Prop :=
  c.length ≤ m ∨ ∀ ch ∈ c, isSpace ch = false

/-- What both packing loops guarantee for every emitted chunk. -/
def chunkOK (m : Nat) (c : List Char) : Prop :=
  c ≠ [] ∧ noEdgeSpace c ∧ sizeOK m c

/-- Invariant of a packing state `(chunks, current_chunk)`: the words of the
emitted chunks followed by the words of the buffer are exactly the words
`ws` packed so far; every emitted chunk is `chunkOK`; the buffer has no
edge whitespace and is `sizeOK`. -/
def stInv (m : Nat) (ws : List (List Char)) (st : List (List Char) × List Char) : Prop :=
  st.1.flatMap pySplit ++ pySplit st.2 = ws
  ∧ (∀ c ∈ st.1, chunkOK m c)
  ∧ noEdgeSpace st.2 ∧ sizeOK m st.2

theorem stInv_init (m : Nat) : stInv m [] ([], []) :=
  ⟨by simp [pySplit_nil], by simp, noEdgeSpace_nil, Or.inl (by simp)⟩

theorem flushChunks_spec {m : Nat} {ws : List (List Char)}
    {st : List (List Char) × List Char} (h : stInv m ws st) :
    (flushChunks st).flatMap pySplit = ws ∧ ∀ c ∈ flushChunks st, chunkOK m c := by
  obtain ⟨h1, h2, h3, h4⟩ := h
  unfold flushChunks
  rw [pyStrip_eq_self h3]
  by_cases hc : st.2 = []
  · rw [if_neg (by simpa using hc)]
    constructor
    · rw [← h1, hc, pySplit_nil, List.append_nil]
    · exact h2
  · rw [if_pos hc]
    constructor
    · rw [List.flatMap_append, List.flatMap_cons, List.flatMap_nil, List.append_nil, h1]
    · intro c hcm
      rcases List.mem_append.mp hcm with hcm | hcm
      · exact h2 c hcm
      · rw [List.mem_singleton] at hcm
        subst hcm
        exact ⟨hc, h3, h4⟩

theorem sbwStep_inv {m : Nat} {ws : List (List Char)} {st : List (List Char) × List Char}
    {w : List Char} (hw : w ≠ []) (hwns : ∀ ch ∈ w, isSpace ch = false)
    (h : stInv m ws st) : stInv m (ws ++ [w]) (sbwStep m st w) := by
  have hf := flushChunks_spec h
  obtain ⟨h1, h2, h3, h4⟩ := h
  have hwE : noEdgeSpace w := noEdgeSpace_of_no_space hwns
  have hwsplit : pySplit w = [w] := pySplit_word hwns hw
  unfold sbwStep
  by_cases hover : st.2.length + w.length + 1 > m
  · rw [if_pos hover]
    refine ⟨?_, hf.2, hwE, Or.inr hwns⟩
    show (flushChunks (st.1, st.2)).flatMap pySplit ++ pySplit w = ws ++ [w]
    rw [hwsplit, hf.1]
  · rw [if_neg hover]
    by_cases hcur : st.2 = []
    · rw [if_neg (by simpa using hcur)]
      refine ⟨?_, h2, hwE, Or.inr hwns⟩
      rw [hwsplit, ← h1, hcur, pySplit_nil, List.append_nil]
    · rw [if_pos hcur]
      refine ⟨?_, h2, noEdgeSpace_append h3 hwE hcur hw, Or.inl ?_⟩
      · rw [pySplit_append_space (by decide) st.2 w, hwsplit, ← List.append_assoc, h1]
      · show (st.2 ++ ' ' :: w).length ≤ m
        have hlen : (st.2 ++ ' ' :: w).length = st.2.length + w.length + 1 := by
          simp [List.length_append]
          omega
        omega

theorem sbw_fold_inv {m : Nat} :
    ∀ (words : List (List Char)) {st : List (List Char) × List Char}
      {ws : List (List Char)},
      (∀ w ∈ words, w ≠ [] ∧ ∀ ch ∈ w, isSpace ch = false) →
      stInv m ws st →
      stInv m (ws ++ words) (words.foldl (sbwStep m) st) := by
  intro words
  induction words with
  | nil => intro st ws _ h; simpa using h
  | cons w words ih =>
    intro st ws hws h
    have hw := hws w (by simp)
    have h1 : stInv m (ws ++ [w]) (sbwStep m st w) := sbwStep_inv hw.1 hw.2 h
    have h2 := ih (fun x hx => hws x (by simp [hx])) h1
    simpa [List.append_assoc] using h2

theorem split_by_words_spec (m : Nat) (text : List Char) :
    (split_by_words text m).flatMap pySplit = pySplit text
    ∧ ∀ c ∈ split_by_words text m, chunkOK m c := by
  have h1 := sbw_fold_inv (m := m) (pySplit text)
    (fun w hw => pySplit_mem hw) (stInv_init m)
  rw [List.nil_append] at h1
  exact flushChunks_spec h1

theorem stcStep_inv {m : Nat} {ws : List (List Char)} {st : List (List Char) × List Char}
    (raw : List Char) (h : stInv m ws st) :
    stInv m (ws ++ sentWords raw) (stcStep m st raw) := by
  have hf := flushChunks_spec h
  obtain ⟨h1, h2, h3, h4⟩ := h
  unfold stcStep sentWords
  by_cases hraw : pyStrip raw = []
  · rw [if_pos hraw, if_pos hraw, List.append_nil]
    exact ⟨h1, h2, h3, h4⟩
  · rw [if_neg hraw, if_neg hraw]
    have hsE : noEdgeSpace (pyStrip raw) := pyStrip_noEdgeSpace raw
    obtain ⟨hsenE, hsenne⟩ := processSentence_noEdgeSpace hsE hraw
    by_cases hover : st.2.length + (processSentence (pyStrip raw)).length + 1 > m
    · rw [if_pos hover]
      by_cases hlong : (processSentence (pyStrip raw)).length > m
      · rw [if_pos hlong]
        have hwcs := split_by_words_spec m (processSentence (pyStrip raw))
        set wcs := split_by_words (processSentence (pyStrip raw)) m with hwcsdef
        show stInv m (ws ++ pySplit (processSentence (pyStrip raw)))
          (flushChunks st ++ wcs.dropLast, wcs.getLast?.getD [])
        by_cases hwnil : wcs = []
        · have hempty : pySplit (processSentence (pyStrip raw)) = [] := by
            rw [← hwcs.1, hwnil]
            rfl
          rw [hwnil]
          simp only [List.dropLast_nil, List.append_nil, List.getLast?_nil,
            Option.getD_none]
          refine ⟨?_, hf.2, noEdgeSpace_nil, Or.inl (by simp)⟩
          rw [hempty, pySplit_nil, List.append_nil, List.append_nil, hf.1]
        · have hlast := List.getLast?_eq_getLast wcs hwnil
          rw [hlast]
          simp only [Option.getD_some]
          have hlmem : wcs.getLast hwnil ∈ wcs := List.getLast_mem hwnil
          have hlok := hwcs.2 _ hlmem
          refine ⟨?_, ?_, hlok.2.1, hlok.2.2⟩
          · show (flushChunks st ++ wcs.dropLast).flatMap pySplit
                ++ pySplit (wcs.getLast hwnil)
                = ws ++ pySplit (processSentence (pyStrip raw))
            rw [List.flatMap_append, List.append_assoc]
            have hjoin : wcs.dropLast.flatMap pySplit ++ pySplit (wcs.getLast hwnil)
                = wcs.flatMap pySplit := by
              conv_rhs => rw [← List.dropLast_append_getLast hwnil]
              rw [List.flatMap_append, List.flatMap_cons, List.flatMap_nil,
                List.append_nil]
            rw [hjoin, hwcs.1, hf.1]
          · intro c hc
            rcases List.mem_append.mp hc with hc | hc
            · exact hf.2 c hc
            · exact hwcs.2 c (List.dropLast_subset wcs hc)
      · rw [if_neg hlong]
        refine ⟨?_, hf.2, hsenE, Or.inl ?_⟩
        · show (flushChunks st).flatMap pySplit ++ pySplit (processSentence (pyStrip raw))
              = ws ++ pySplit (processSentence (pyStrip raw))
          rw [hf.1]
        · show (processSentence (pyStrip raw)).length ≤ m
          omega
    · rw [if_neg hover]
      by_cases hcur : st.2 = []
      · rw [if_neg (by simpa using hcur)]
        refine ⟨?_, h2, hsenE, Or.inl ?_⟩
        · show st.1.flatMap pySplit ++ pySplit (processSentence (pyStrip raw))
              = ws ++ pySplit (processSentence (pyStrip raw))
          rw [← h1, hcur, pySplit_nil, List.append_nil]
        · show (processSentence (pyStrip raw)).length ≤ m
          omega
      · rw [if_pos hcur]
        refine ⟨?_, h2, noEdgeSpace_append h3 hsenE hcur hsenne, Or.inl ?_⟩
        · show st.1.flatMap pySplit ++ pySplit (st.2 ++ ' ' :: processSentence (pyStrip raw))
              = ws ++ pySplit (processSentence (pyStrip raw))
          rw [pySplit_append_space (by decide) st.2 _, ← List.append_assoc, h1]
        · show (st.2 ++ ' ' :: processSentence (pyStrip raw)).length ≤ m
          have hlen : (st.2 ++ ' ' :: processSentence (pyStrip raw)).length
              = st.2.length + (processSentence (pyStrip raw)).length + 1 := by
            simp [List.length_append]
            omega
          omega

theorem stc_fold_inv {m : Nat} :
    ∀ (sents : List (List Char)) {st : List (List Char) × List Char}
      {ws : List (List Char)},
      stInv m ws st →
      stInv m (ws ++ sents.flatMap sentWords) (sents.foldl (stcStep m) st) := by
  intro sents
  induction sents with
  | nil => intro st ws h; simpa using h
  | cons raw sents ih =>
    intro st ws h
    have h1 : stInv m (ws ++ sentWords raw) (stcStep m st raw) := stcStep_inv raw h
    have h2 := ih h1
    simpa [List.append_assoc] using h2

theorem sentencePhase_spec (m : Nat) (sents : List (List Char)) :
    (sentencePhase m sents).flatMap pySplit = sents.flatMap sentWords
    ∧ ∀ c ∈ sentencePhase m sents, chunkOK m c := by
  have h := stc_fold_inv (m := m) sents (stInv_init m)
  rw [List.nil_append] at h
  exact flushChunks_spec h

theorem normalizedWords_eq (text : List Char) :
    normalizedWords text = (reSplitSentences text).flatMap sentWords := by
  unfold normalizedWords processedSentences
  generalize reSplitSentences text = l
  induction l with
  | nil => rfl
  | cons raw l ih =>
    rw [List.filterMap_cons, List.flatMap_cons]
    by_cases hraw : pyStrip raw = []
    · rw [if_pos hraw]
      have hsw : sentWords raw = [] := by
        unfold sentWords
        rw [if_pos hraw]
      rw [hsw, List.nil_append]
      exact ih
    · rw [if_neg hraw]
      have hsw : sentWords raw = pySplit (processSentence (pyStrip raw)) := by
        unfold sentWords
        rw [if_neg hraw]
      rw [hsw, List.flatMap_cons, ih]

/-! ## Claims about the segmenter -/

/-- Claim C1: for every text and every max_chunk_size > 0 with
len(text) ≤ max_chunk_size, `split_text_into_chunks` returns the
single-element sequence holding the text verbatim — no trimming, no
splitting. -/
theorem C1_short_text_identity (text : List Char) (m : Nat)
    (hm : 0 < m) (hle : text.length ≤ m) :
    split_text_into_chunks text m = [text] := by
  unfold split_text_into_chunks
  rw [if_pos hle]

theorem C1_short_text_identity_witness :
    0 < 10 ∧ "hi there".toList.length ≤ 10
    ∧ split_text_into_chunks "hi there".toList 10 = ["hi there".toList] :=
  ⟨by decide, by decide,
    C1_short_text_identity "hi there".toList 10 (by decide) (by decide)⟩

/-- Claim C2 (counterexample): `split_text_into_chunks` on the empty string
returns the one-element sequence containing the empty string, not the empty
sequence the claim asserts. -/
theorem C2_empty_counterexample :
    split_text_into_chunks [] 5 = [[]] ∧ split_text_into_chunks [] 5 ≠ [] := by
  decide

/-- Claim C2 (amended): for every max_chunk_size > 0,
`split_text_into_chunks` applied to the empty string returns the
one-element sequence containing the empty string (the `len(text) <=
max_chunk_size` branch returns `[text]` verbatim). -/
theorem C2_empty_returns_singleton (m : Nat) (hm : 0 < m) :
    split_text_into_chunks [] m = [[]] := by
  unfold split_text_into_chunks
  rw [if_pos (by simp)]

theorem C2_empty_returns_singleton_witness :
    0 < 7 ∧ split_text_into_chunks [] 7 = [[]] :=
  ⟨by decide, C2_empty_returns_singleton 7 (by decide)⟩

/-- Claim C3: for nonempty text longer than the positive limit, the chunks
reconstruct the normalised input — the words of the chunks, in order (which
is what single-space joining preserves), are exactly `normalizedWords text`,
the input's words after terminal-punctuation normalisation and whitespace
collapsing — and no chunk is empty after trimming. -/
theorem C3_reconstruction (text : List Char) (m : Nat)
    (hm : 0 < m) (hl : m < text.length) :
    (split_text_into_chunks text m).flatMap pySplit = normalizedWords text
    ∧ ∀ c ∈ split_text_into_chunks text m, pyStrip c ≠ [] := by
  have hns : ¬ text.length ≤ m := by omega
  unfold split_text_into_chunks
  rw [if_neg hns]
  have h := sentencePhase_spec m (reSplitSentences text)
  refine ⟨?_, ?_⟩
  · rw [h.1, normalizedWords_eq]
  · intro c hc
    have hok := h.2 c hc
    rw [pyStrip_eq_self hok.2.1]
    exact hok.1

theorem C3_reconstruction_witness :
    0 < 5 ∧ 5 < "ab cd. ef gh! ij".toList.length
    ∧ ((split_text_into_chunks "ab cd. ef gh! ij".toList 5).flatMap pySplit
        = normalizedWords "ab cd. ef gh! ij".toList
      ∧ ∀ c ∈ split_text_into_chunks "ab cd. ef gh! ij".toList 5, pyStrip c ≠ []) :=
  ⟨by decide, by decide,
    C3_reconstruction "ab cd. ef gh! ij".toList 5 (by decide) (by decide)⟩

/-- Claim C4: for every text and max_chunk_size > 0, every chunk respects
len(chunk) ≤ max_chunk_size, except that a chunk exceeding the limit
contains no whitespace at all — it is a single indivisible word — and such
an oversized chunk is a whole word of the normalised text, never split
further. -/
theorem C4_soft_size_bound (text : List Char) (m : Nat) (hm : 0 < m) :
    ∀ c ∈ split_text_into_chunks text m,
      (c.length ≤ m ∨ ∀ ch ∈ c, isSpace ch = false)
      ∧ (m < c.length → c ∈ normalizedWords text) := by
  intro c hc
  by_cases hl : text.length ≤ m
  · unfold split_text_into_chunks at hc
    rw [if_pos hl] at hc
    rw [List.mem_singleton] at hc
    subst hc
    exact ⟨Or.inl hl, fun hgt => absurd hl (by omega)⟩
  · unfold split_text_into_chunks at hc
    rw [if_neg hl] at hc
    have h := sentencePhase_spec m (reSplitSentences text)
    have hok := h.2 c hc
    refine ⟨hok.2.2, ?_⟩
    intro hlen
    have hnospace : ∀ ch ∈ c, isSpace ch = false := by
      rcases hok.2.2 with h' | h'
      · omega
      · exact h'
    have hsplit : pySplit c = [c] := pySplit_word hnospace hok.1
    have hmem : c ∈ (sentencePhase m (reSplitSentences text)).flatMap pySplit := by
      rw [List.mem_flatMap]
      exact ⟨c, hc, by rw [hsplit]; simp⟩
    rw [h.1, ← normalizedWords_eq] at hmem
    exact hmem

theorem C4_soft_size_bound_witness :
    0 < 4
    ∧ "xyxyxyxyxyxyxyxy.".toList
        ∈ split_text_into_chunks "xyxyxyxyxyxyxyxy".toList 4
    ∧ (("xyxyxyxyxyxyxyxy.".toList.length ≤ 4
        ∨ ∀ ch ∈ "xyxyxyxyxyxyxyxy.".toList, isSpace ch = false)
      ∧ (4 < "xyxyxyxyxyxyxyxy.".toList.length →
          "xyxyxyxyxyxyxyxy.".toList ∈ normalizedWords "xyxyxyxyxyxyxyxy".toList)) :=
  ⟨by decide, by decide,
    C4_soft_size_bound "xyxyxyxyxyxyxyxy".toList 4 (by decide)
      "xyxyxyxyxyxyxyxy.".toList (by decide)⟩

/-! ## The sentence split: reconstruction, separator shape, completeness -/

theorem reSplitAux_nil (skipWS : Bool) (acc : List Char) :
    reSplitAux skipWS acc [] = [acc.reverse] := rfl

theorem reSplitAux_cons (skipWS : Bool) (acc : List Char) (c : Char) (cs : List Char) :
    reSplitAux skipWS acc (c :: cs)
      = if (skipWS && isSpace c) = true then reSplitAux true acc cs
        else if (isTerm c && !cs.isEmpty && isSpace cs.headI) = true then
          acc.reverse :: reSplitAux true [] cs
        else reSplitAux false (c :: acc) cs := rfl

theorem reSplitAuxS_nil (acc : List Char) :
    reSplitAuxS acc [] = [(acc.reverse, [])] := by
  rw [reSplitAuxS]

theorem reSplitAuxS_cons (acc : List Char) (c : Char) (cs : List Char) :
    reSplitAuxS acc (c :: cs)
      = if (isTerm c && !cs.isEmpty && isSpace cs.headI) = true then
          (acc.reverse, c :: cs.takeWhile isSpace)
            :: reSplitAuxS [] (cs.dropWhile isSpace)
        else reSplitAuxS (c :: acc) cs := by
  rw [reSplitAuxS]

theorem reSplitAux_skip :
    ∀ (l acc : List Char),
      reSplitAux true acc l = reSplitAux false acc (l.dropWhile isSpace) := by
  intro l
  induction l with
  | nil => intro acc; rfl
  | cons c cs ih =>
    intro acc
    rw [List.dropWhile_cons]
    by_cases hc : isSpace c = true
    · rw [if_pos hc, reSplitAux_cons, if_pos (by simp [hc]), ih]
    · have h1 : ¬ ((true && isSpace c) = true) := by simp [hc]
      have h2 : ¬ ((false && isSpace c) = true) := by simp
      rw [if_neg hc, reSplitAux_cons true acc c cs, if_neg h1,
        reSplitAux_cons false acc c cs, if_neg h2]

theorem reSplitAuxS_fst :
    ∀ (acc l : List Char),
      (reSplitAuxS acc l).map Prod.fst = reSplitAux false acc l := by
  intro acc l
  induction acc, l using reSplitAuxS.induct with
  | case1 acc => rw [reSplitAuxS_nil, reSplitAux_nil, List.map_cons, List.map_nil]
  | case2 acc c cs hcond ih =>
    rw [reSplitAuxS_cons, if_pos hcond, reSplitAux_cons, if_neg (by simp),
      if_pos hcond]
    rw [List.map_cons, ih, ← reSplitAux_skip]
  | case3 acc c cs hcond ih =>
    rw [reSplitAuxS_cons, if_neg hcond, reSplitAux_cons, if_neg (by simp),
      if_neg hcond]
    exact ih

theorem reSplitAuxS_join :
    ∀ (acc l : List Char),
      ((reSplitAuxS acc l).map (fun p => p.1 ++ p.2)).flatten = acc.reverse ++ l := by
  intro acc l
  induction acc, l using reSplitAuxS.induct with
  | case1 acc => simp [reSplitAuxS_nil]
  | case2 acc c cs hcond ih =>
    rw [reSplitAuxS_cons, if_pos hcond]
    rw [List.map_cons, List.flatten_cons, ih]
    simp only [List.reverse_nil, List.nil_append]
    rw [List.append_assoc, List.cons_append, List.takeWhile_append_dropWhile]
  | case3 acc c cs hcond ih =>
    rw [reSplitAuxS_cons, if_neg hcond, ih]
    simp

theorem reSplitAuxS_sep :
    ∀ (acc l : List Char) (p : List Char × List Char),
      p ∈ reSplitAuxS acc l → p.2 ≠ [] →
      ∃ t ws, p.2 = t :: ws ∧ isTerm t = true ∧ ws ≠ []
        ∧ ∀ ch ∈ ws, isSpace ch = true := by
  intro acc l
  induction acc, l using reSplitAuxS.induct with
  | case1 acc =>
    intro p hp hne
    rw [reSplitAuxS_nil, List.mem_singleton] at hp
    subst hp
    exact absurd rfl hne
  | case2 acc c cs hcond ih =>
    intro p hp hne
    rw [reSplitAuxS_cons, if_pos hcond] at hp
    rcases List.mem_cons.mp hp with hp | hp
    · subst hp
      refine ⟨c, cs.takeWhile isSpace, rfl, ?_, ?_, ?_⟩
      · have hb := hcond
        simp only [Bool.and_eq_true] at hb
        exact hb.1.1
      · have hbool := hcond
        simp only [Bool.and_eq_true, Bool.not_eq_true'] at hbool
        cases cs with
        | nil => simp at hbool
        | cons d ds =>
          have hd : isSpace d = true := by simpa using hbool.2
          simp [List.takeWhile_cons, hd]
      · exact fun ch hch => List.mem_takeWhile_imp hch
    · exact ih p hp hne
  | case3 acc c cs hcond ih =>
    intro p hp hne
    rw [reSplitAuxS_cons, if_neg hcond] at hp
    exact ih p hp hne

theorem chunkNoTermSpace_snoc :
    ∀ (xs : List Char) (c : Char),
      chunkNoTermSpace (xs ++ [c])
        = (chunkNoTermSpace xs &&
            match xs.getLast? with
            | none => true
            | some a => !(isTerm a && isSpace c)) := by
  intro xs
  induction xs with
  | nil => intro c; rfl
  | cons a xs ih =>
    intro c
    cases xs with
    | nil => simp [chunkNoTermSpace]
    | cons b xs' =>
      show chunkNoTermSpace (a :: b :: (xs' ++ [c])) = _
      have hstep : chunkNoTermSpace (a :: b :: (xs' ++ [c]))
          = (!(isTerm a && isSpace b) && chunkNoTermSpace (b :: (xs' ++ [c]))) := rfl
      rw [hstep]
      have hstep2 : chunkNoTermSpace (b :: (xs' ++ [c]))
          = chunkNoTermSpace ((b :: xs') ++ [c]) := rfl
      rw [hstep2, ih c, List.getLast?_cons_cons]
      have hstep3 : chunkNoTermSpace (a :: b :: xs')
          = (!(isTerm a && isSpace b) && chunkNoTermSpace (b :: xs')) := rfl
      rw [hstep3, Bool.and_assoc]

theorem reSplitAux_noPair :
    ∀ (l : List Char) (skipWS : Bool) (acc : List Char),
      chunkNoTermSpace acc.reverse = true →
      (∀ a b, acc.head? = some a → l.head? = some b →
        (isTerm a && isSpace b) = false) →
      (skipWS = true → acc = []) →
      ∀ q ∈ reSplitAux skipWS acc l, chunkNoTermSpace q = true := by
  intro l
  induction l with
  | nil =>
    intro skipWS acc hacc _ _ q hq
    rw [reSplitAux_nil, List.mem_singleton] at hq
    subst hq
    exact hacc
  | cons c cs ih =>
    intro skipWS acc hacc hpair hskip q hq
    rw [reSplitAux_cons] at hq
    by_cases hsk : (skipWS && isSpace c) = true
    · have hae : acc = [] := hskip (by
        rcases Bool.and_eq_true _ _ |>.mp hsk with ⟨h1, _⟩
        exact h1)
      subst hae
      rw [if_pos hsk] at hq
      exact ih true [] rfl (by simp) (fun _ => rfl) q hq
    · rw [if_neg hsk] at hq
      by_cases hterm : (isTerm c && !cs.isEmpty && isSpace cs.headI) = true
      · rw [if_pos hterm] at hq
        rcases List.mem_cons.mp hq with hq | hq
        · subst hq
          exact hacc
        · exact ih true [] rfl (by simp) (fun _ => rfl) q hq
      · rw [if_neg hterm] at hq
        refine ih false (c :: acc) ?_ ?_ (by simp) q hq
        · rw [List.reverse_cons, chunkNoTermSpace_snoc, List.getLast?_reverse]
          cases hh : acc.head? with
          | none => simp [hacc]
          | some a =>
            have hab : (isTerm a && isSpace c) = false := hpair a c hh rfl
            simp [hacc, hab]
        · intro a b ha hb
          simp only [List.head?_cons, Option.some.injEq] at ha
          subst ha
          cases cs with
          | nil => simp at hb
          | cons d ds =>
            simp only [List.head?_cons, Option.some.injEq] at hb
            subst hb
            have hterm' : (isTerm c && !(d :: ds).isEmpty && isSpace (d :: ds).headI)
                = false := by
              exact Bool.not_eq_true _ |>.mp hterm
            simpa using hterm'

theorem reSplit_noPair (text : List Char) :
    ∀ q ∈ reSplitSentences text, chunkNoTermSpace q = true :=
  reSplitAux_noPair text false [] rfl (by simp) (by simp)

/-- Claim C5: when len(text) > max_chunk_size the function takes the
sentence-split path; the split partitions the text at each occurrence of a
terminator immediately followed by whitespace — pieces and consumed
separators reconstruct the text exactly, each separator is one terminator
followed by a nonempty whitespace run (so the terminator is consumed and
not retained in the candidate), and no candidate contains a further
occurrence of the pattern — and every candidate that is nonempty after
stripping is normalised to end with a terminator, a period being appended
exactly when the stripped candidate does not already end with one, so
fragments originally ended by `؟` or `!` plus whitespace end with `'.'`. -/
theorem C5_sentence_split (text : List Char) (m : Nat)
    (hm : 0 < m) (hl : m < text.length) :
    split_text_into_chunks text m = sentencePhase m (reSplitSentences text)
    ∧ (reSplitWithSeps text).map Prod.fst = reSplitSentences text
    ∧ ((reSplitWithSeps text).map (fun p => p.1 ++ p.2)).flatten = text
    ∧ (∀ p ∈ reSplitWithSeps text, p.2 ≠ [] →
        ∃ t ws, p.2 = t :: ws ∧ isTerm t = true ∧ ws ≠ []
          ∧ ∀ ch ∈ ws, isSpace ch = true)
    ∧ (∀ q ∈ reSplitSentences text, chunkNoTermSpace q = true)
    ∧ (∀ q ∈ reSplitSentences text, pyStrip q ≠ [] →
        endsTerm (processSentence (pyStrip q)) = true
        ∧ (endsTerm (pyStrip q) = false →
            processSentence (pyStrip q) = pyStrip q ++ ['.'])) := by
  refine ⟨?_, reSplitAuxS_fst [] text, by simpa using reSplitAuxS_join [] text,
    fun p hp => reSplitAuxS_sep [] text p hp, reSplit_noPair text, ?_⟩
  · unfold split_text_into_chunks
    rw [if_neg (by omega)]
  · intro q _ hne
    refine ⟨processSentence_endsTerm hne, fun hterm => ?_⟩
    unfold processSentence
    rw [if_neg (by simp [hterm])]

theorem C5_sentence_split_witness :
    0 < 4 ∧ 4 < "ok؟ fine. yes".toList.length
    ∧ (split_text_into_chunks "ok؟ fine. yes".toList 4
        = sentencePhase 4 (reSplitSentences "ok؟ fine. yes".toList)
      ∧ (reSplitWithSeps "ok؟ fine. yes".toList).map Prod.fst
        = reSplitSentences "ok؟ fine. yes".toList
      ∧ ((reSplitWithSeps "ok؟ fine. yes".toList).map
          (fun p => p.1 ++ p.2)).flatten = "ok؟ fine. yes".toList
      ∧ (∀ p ∈ reSplitWithSeps "ok؟ fine. yes".toList, p.2 ≠ [] →
          ∃ t ws, p.2 = t :: ws ∧ isTerm t = true ∧ ws ≠ []
            ∧ ∀ ch ∈ ws, isSpace ch = true)
      ∧ (∀ q ∈ reSplitSentences "ok؟ fine. yes".toList,
          chunkNoTermSpace q = true)
      ∧ (∀ q ∈ reSplitSentences "ok؟ fine. yes".toList, pyStrip q ≠ [] →
          endsTerm (processSentence (pyStrip q)) = true
          ∧ (endsTerm (pyStrip q) = false →
              processSentence (pyStrip q) = pyStrip q ++ ['.']))) :=
  ⟨by decide, by decide,
    C5_sentence_split "ok؟ fine. yes".toList 4 (by decide) (by decide)⟩

/-! ## Claims about the retry policy -/

/-- Claim C6: a null result from the synthesis call makes `text_to_speech`
return `False` immediately on that first attempt — no sleep, no retry, no
further attempt consumed, no file written. -/
theorem C6_null_result_immediate_false (outcomes : Nat → SynthOutcome)
    (retry_count : Nat) (h0 : outcomes 0 = .nullResult) (hr : 0 < retry_count) :
    text_to_speech outcomes retry_count = ⟨.returnedFalse, 1, [], 0⟩ := by
  obtain ⟨k, rfl⟩ : ∃ k, retry_count = k + 1 := ⟨retry_count - 1, by omega⟩
  unfold text_to_speech
  simp [ttsAux, h0]

theorem C6_null_result_immediate_false_witness :
    (fun _ => SynthOutcome.nullResult) 0 = SynthOutcome.nullResult ∧ 0 < 3
    ∧ text_to_speech (fun _ => SynthOutcome.nullResult) 3
        = ⟨.returnedFalse, 1, [], 0⟩ :=
  ⟨rfl, by decide, C6_null_result_immediate_false _ 3 rfl (by decide)⟩

theorem ttsAux_all_failLike (outcomes : Nat → SynthOutcome) :
    ∀ (f a : Nat), 0 < f →
      (∀ i, a ≤ i → i < a + f → failLike (outcomes i) = true) →
      ttsAux outcomes a f
        = ⟨.raised, f, (List.range' (a + 1) (f - 1)).map (fun k => k * 2), 0⟩ := by
  intro f
  induction f with
  | zero => intro a h _; omega
  | succ g ih =>
    intro a _ hall
    have hfa := hall a (le_refl a) (by omega)
    by_cases hg : g = 0
    · subst hg
      cases houtcome : outcomes a with
      | nullResult => rw [houtcome] at hfa; simp [failLike] at hfa
      | completed => rw [houtcome] at hfa; simp [failLike] at hfa
      | canceled d =>
        rw [houtcome] at hfa
        simp only [failLike, Bool.not_eq_true'] at hfa
        simp [ttsAux, houtcome, hfa]
      | otherReason => simp [ttsAux, houtcome]
      | exceptionRaised => simp [ttsAux, houtcome]
    · have hr : ttsAux outcomes (a + 1) g
          = ⟨.raised, g, (List.range' (a + 2) (g - 1)).map (fun k => k * 2), 0⟩ :=
        ih (a + 1) (by omega) (fun i h1 h2 => hall i (by omega) (by omega))
      have hsleeps : (List.range' (a + 1) g).map (fun k => k * 2)
          = (a + 1) * 2 :: (List.range' (a + 2) (g - 1)).map (fun k => k * 2) := by
        obtain ⟨j, rfl⟩ : ∃ j, g = j + 1 := ⟨g - 1, by omega⟩
        rw [Nat.add_sub_cancel, List.range'_succ, List.map_cons]
      cases houtcome : outcomes a with
      | nullResult => rw [houtcome] at hfa; simp [failLike] at hfa
      | completed => rw [houtcome] at hfa; simp [failLike] at hfa
      | canceled d =>
        rw [houtcome] at hfa
        simp only [failLike, Bool.not_eq_true'] at hfa
        simp [ttsAux, houtcome, hfa, hg, hr, hsleeps]
      | otherReason => simp [ttsAux, houtcome, hg, hr, hsleeps]
      | exceptionRaised => simp [ttsAux, houtcome, hg, hr, hsleeps]

/-- Claim C7: with retry_count = 3 and every attempt's outcome a
non-rate-limited failure or exception, `text_to_speech` makes exactly 3
attempts, sleeps (attempt_index + 1) * 2 seconds after each non-final
attempt (2 then 4 seconds), raises after the final attempt, and records no
file as written. -/
theorem C7_retry_exhaustion_raises (outcomes : Nat → SynthOutcome)
    (hall : ∀ i < 3, failLike (outcomes i) = true) :
    text_to_speech outcomes 3 = ⟨.raised, 3, [2, 4], 0⟩ := by
  unfold text_to_speech
  rw [ttsAux_all_failLike outcomes 3 0 (by omega) (fun i _ h2 => hall i (by omega))]
  rfl

theorem C7_retry_exhaustion_raises_witness :
    (∀ i < 3, failLike ((fun _ => SynthOutcome.otherReason) i) = true)
    ∧ text_to_speech (fun _ => SynthOutcome.otherReason) 3 = ⟨.raised, 3, [2, 4], 0⟩ :=
  ⟨by decide, C7_retry_exhaustion_raises _ (by decide)⟩

theorem ttsAux_all_rateLike (outcomes : Nat → SynthOutcome) :
    ∀ (f a : Nat),
      (∀ i, a ≤ i → i < a + f → rateLike (outcomes i) = true) →
      ttsAux outcomes a f
        = ⟨.returnedFalse, f, (List.range' (a + 1) f).map (fun k => k * 5), 0⟩ := by
  intro f
  induction f with
  | zero => intro a _; rfl
  | succ g ih =>
    intro a hall
    have hfa := hall a (le_refl a) (by omega)
    cases houtcome : outcomes a with
    | nullResult => rw [houtcome] at hfa; simp [rateLike] at hfa
    | completed => rw [houtcome] at hfa; simp [rateLike] at hfa
    | canceled d =>
      rw [houtcome] at hfa
      simp only [rateLike] at hfa
      have hr : ttsAux outcomes (a + 1) g
          = ⟨.returnedFalse, g, (List.range' (a + 2) g).map (fun k => k * 5), 0⟩ :=
        ih (a + 1) (fun i h1 h2 => hall i (by omega) (by omega))
      simp [ttsAux, houtcome, hfa, hr, List.range'_succ]
    | otherReason => rw [houtcome] at hfa; simp [rateLike] at hfa
    | exceptionRaised => rw [houtcome] at hfa; simp [rateLike] at hfa

/-- Claim C10: if every attempt's outcome is classified rate-limited (error
details containing "quota" or "rate", case-insensitively), `text_to_speech`
sleeps (attempt_index + 1) * 5 seconds after every attempt including the
final one, and returns `False` after retry_count attempts without raising —
unlike non-rate-limited exhaustion, which raises. -/
theorem C10_rate_limited_exhaustion_returns_false (outcomes : Nat → SynthOutcome)
    (retry_count : Nat) (hall : ∀ i < retry_count, rateLike (outcomes i) = true) :
    text_to_speech outcomes retry_count
      = ⟨.returnedFalse, retry_count,
          (List.range' 1 retry_count).map (fun k => k * 5), 0⟩ :=
  ttsAux_all_rateLike outcomes retry_count 0 (fun i _ h2 => hall i (by omega))

theorem C10_rate_limited_exhaustion_returns_false_witness :
    (∀ i < 3, rateLike
      ((fun _ => SynthOutcome.canceled "Rate limit exceeded".toList) i) = true)
    ∧ text_to_speech (fun _ => SynthOutcome.canceled "Rate limit exceeded".toList) 3
        = ⟨.returnedFalse, 3, (List.range' 1 3).map (fun k => k * 5), 0⟩ :=
  ⟨by decide, C10_rate_limited_exhaustion_returns_false _ 3 (by decide)⟩

/-! ## Claims about the orchestrators -/

/-- The output paths of exactly the chunks whose synthesis call succeeds,
in input order. -/
def chunkSuccesses (tts : List Char → OutPath → ChunkOutcome) (book : List Char)
    (chNum : Int) (chunks : List (List Char)) : List OutPath :=
  chunks.enum.filterMap (fun e =>
    if tts e.2 ⟨book, chNum, e.1 + 1⟩ = .success then some ⟨book, chNum, e.1 + 1⟩
    else none)

theorem chunkLoop_eq (tts : List Char → OutPath → ChunkOutcome) (book : List Char)
    (chNum : Int) :
    ∀ (chunks : List (List Char)) (k : Nat),
      chunkLoop tts book chNum k chunks
        = (chunks.enumFrom k).filterMap (fun e =>
            if tts e.2 ⟨book, chNum, e.1 + 1⟩ = .success
            then some ⟨book, chNum, e.1 + 1⟩ else none) := by
  intro chunks
  induction chunks with
  | nil => intro k; rfl
  | cons c rest ih =>
    intro k
    have henum : (c :: rest).enumFrom k = (k, c) :: rest.enumFrom (k + 1) := rfl
    rw [henum, List.filterMap_cons]
    cases ho : tts c ⟨book, chNum, k + 1⟩ with
    | success => simp [chunkLoop, ho, ih]
    | returnedFalse => simp [chunkLoop, ho, ih]
    | raised => simp [chunkLoop, ho, ih]

theorem foldlM_collect (f : Nat → Option (List OutPath)) (g : Nat → List OutPath) :
    ∀ (n : Nat), (∀ i < n, f i = some (g i)) →
      ∀ (init : List OutPath),
        (List.range n).foldlM (fun acc i => (f i).map (fun fs => acc ++ fs)) init
          = some (init ++ (List.range n).flatMap g) := by
  intro n
  induction n with
  | zero => intro _ init; simp
  | succ n ih =>
    intro h init
    rw [List.range_succ, List.foldlM_append, ih (fun i hi => h i (by omega)) init]
    have hn := h n (by omega)
    simp [List.foldlM_cons, List.foldlM_nil, hn, List.flatMap_append]

/-- Claim C8: a chunk whose synthesis call returns `False` or raises is
skipped and does not abort the remaining chunks or chapters:
`convert_chapter_chunked` on a valid index returns exactly the output paths
of the chunks that succeeded, in input order, and
`convert_all_chapters_chunked` returns their concatenation over all
chapters in order — in both cases a `some`, never a propagated failure. -/
theorem C8_failed_chunks_skipped (tts : List Char → OutPath → ChunkOutcome)
    (book : List Char) (chunk_size : Nat) (chapters : List Chapter) :
    (∀ (i : Nat) (hi : i < chapters.length),
      convert_chapter_chunked tts book chunk_size chapters (i : Int)
        = some (chunkSuccesses tts book ((i : Int) + 1)
            (split_text_into_chunks (chapters.get ⟨i, hi⟩).text chunk_size)))
    ∧ convert_all_chapters_chunked tts book chunk_size chapters
        = some ((List.range chapters.length).flatMap (fun i =>
            match chapters[i]? with
            | some ch => chunkSuccesses tts book ((i : Int) + 1)
                (split_text_into_chunks ch.text chunk_size)
            | none => [])) := by
  have hch : ∀ (i : Nat) (hi : i < chapters.length),
      convert_chapter_chunked tts book chunk_size chapters (i : Int)
        = some (chunkSuccesses tts book ((i : Int) + 1)
            (split_text_into_chunks (chapters.get ⟨i, hi⟩).text chunk_size)) := by
    intro i hi
    unfold convert_chapter_chunked
    have hne : chapters.isEmpty = false := by
      rw [List.isEmpty_eq_false]
      intro h
      rw [h] at hi
      simp at hi
    rw [if_neg (show ¬ (chapters.isEmpty = true) by simp [hne])]
    rw [if_neg (show ¬ ((chapters.length : Int) ≤ (i : Int)) by
      exact_mod_cast Nat.not_le.mpr hi)]
    have hidx : pyIndex chapters (i : Int) = some (chapters.get ⟨i, hi⟩) := by
      unfold pyIndex
      rw [if_neg (show ¬ ((i : Int) < 0) by omega)]
      rw [if_pos (show (0 : Int) ≤ (i : Int) by omega)]
      rw [Int.toNat_natCast, List.getElem?_eq_getElem hi]
      rfl
    rw [hidx]
    show some (chunkLoop tts book ((i : Int) + 1) 0
      (split_text_into_chunks (chapters.get ⟨i, hi⟩).text chunk_size)) = _
    rw [chunkLoop_eq]
    rfl
  refine ⟨hch, ?_⟩
  unfold convert_all_chapters_chunked
  by_cases hnil : chapters = []
  · subst hnil
    simp
  · rw [if_neg (show ¬ (chapters.isEmpty = true) by simp [hnil])]
    rw [foldlM_collect
      (fun i => convert_chapter_chunked tts book chunk_size chapters (i : Int))
      (fun i =>
        match chapters[i]? with
        | some ch => chunkSuccesses tts book ((i : Int) + 1)
            (split_text_into_chunks ch.text chunk_size)
        | none => [])
      chapters.length ?_ []]
    · rw [List.nil_append]
    · intro i hi
      show convert_chapter_chunked tts book chunk_size chapters (i : Int)
        = some (match chapters[i]? with
            | some ch => chunkSuccesses tts book ((i : Int) + 1)
                (split_text_into_chunks ch.text chunk_size)
            | none => [])
      rw [hch i hi, List.getElem?_eq_getElem hi]
      rfl

theorem C8_failed_chunks_skipped_witness :
    (0 : Nat) < ([⟨[], "ok".toList⟩, ⟨[], "bad".toList⟩] : List Chapter).length
    ∧ convert_chapter_chunked
        (fun c _ => if c = "ok".toList then .success else .raised)
        "b".toList 4000 [⟨[], "ok".toList⟩, ⟨[], "bad".toList⟩] ((0 : Nat) : Int)
      = some (chunkSuccesses
          (fun c _ => if c = "ok".toList then .success else .raised)
          "b".toList (((0 : Nat) : Int) + 1)
          (split_text_into_chunks
            (([⟨[], "ok".toList⟩, ⟨[], "bad".toList⟩] : List Chapter).get
              ⟨0, by decide⟩).text 4000)) :=
  ⟨by decide,
    (C8_failed_chunks_skipped
      (fun c _ => if c = "ok".toList then .success else .raised)
      "b".toList 4000 [⟨[], "ok".toList⟩, ⟨[], "bad".toList⟩]).1 0 (by decide)⟩

/-- Claim C9 (counterexample): with a synthesis stub that always succeeds, a
one-chapter list whose chapter text is `". . "` and chunk size 3, the
in-range negative index -1 passes the bounds check and conversion proceeds,
yet the call returns `some []` — an empty result — because segmentation of
`". . "` yields no chunks at all. -/
theorem C9_negative_index_counterexample :
    (-1 : Int) < 0
    ∧ -(([⟨[], ". . ".toList⟩] : List Chapter).length : Int) ≤ -1
    ∧ convert_chapter_chunked (fun _ _ => .success) "b".toList 3
        [⟨[], ". . ".toList⟩] (-1) = some [] :=
  ⟨by decide, by decide, by decide⟩

/-- Claim C9 (amended): for a non-empty chapter list of length n and a
negative chapter_index with -n ≤ chapter_index < 0, the bounds check (which
only rejects chapter_index ≥ n) passes, the index selects the chapter at
position n + chapter_index, and conversion proceeds with the filename's
chapter number chapter_index + 1 (possibly zero or negative): the call
returns the success paths of that chapter's chunks — which can still be the
empty list when no chunk succeeds or segmentation yields no chunks. -/
theorem C9_negative_index_proceeds (tts : List Char → OutPath → ChunkOutcome)
    (book : List Char) (chunk_size : Nat) (chapters : List Chapter) (i : Int)
    (hneg : i < 0) (hin : -(chapters.length : Int) ≤ i) :
    convert_chapter_chunked tts book chunk_size chapters i
      = some (chunkLoop tts book (i + 1) 0
          (split_text_into_chunks
            (chapters.get
              ⟨((chapters.length : Int) + i).toNat, by omega⟩).text
            chunk_size)) := by
  have hlen : 0 < chapters.length := by omega
  unfold convert_chapter_chunked
  rw [if_neg (show ¬ (chapters.isEmpty = true) by
    simp only [List.isEmpty_iff]
    intro h
    rw [h] at hlen
    simp at hlen)]
  rw [if_neg (show ¬ ((chapters.length : Int) ≤ i) by omega)]
  have hidx : pyIndex chapters i
      = some (chapters.get ⟨((chapters.length : Int) + i).toNat, by omega⟩) := by
    unfold pyIndex
    rw [if_pos hneg]
    rw [if_pos (show (0 : Int) ≤ (chapters.length : Int) + i by omega)]
    rw [List.getElem?_eq_getElem (show ((chapters.length : Int) + i).toNat
      < chapters.length by omega)]
    rfl
  rw [hidx]

theorem C9_negative_index_proceeds_witness :
    (-1 : Int) < 0
    ∧ -(([⟨[], "hi".toList⟩] : List Chapter).length : Int) ≤ -1
    ∧ convert_chapter_chunked (fun _ _ => .success) "b".toList 4000
        [⟨[], "hi".toList⟩] (-1)
      = some (chunkLoop (fun _ _ => .success) "b".toList (-1 + 1) 0
          (split_text_into_chunks
            (([⟨[], "hi".toList⟩] : List Chapter).get
              ⟨((([⟨[], "hi".toList⟩] : List Chapter).length : Int) + -1).toNat,
                by decide⟩).text
            4000)) :=
  ⟨by decide, by decide,
    C9_negative_index_proceeds (fun _ _ => .success) "b".toList 4000
      [⟨[], "hi".toList⟩] (-1) (by decide) (by decide)⟩

end ArabicToMP3
